import Mathlib

/-!
Shallow embedding of the ClearCase changeset-reduction and diff-synthesis
engine of rbtools (`rbtools/clients/clearcase.py`, with helpers from
`rbtools/utils/filesystem.py`).

External collaborators (the `diff` tool, the `patch` tool, the `cleartool`
identity lookup, and the file store) are modelled as explicit parameters:
a filesystem value `FS` and function parameters `dtool`, `ptool`, `oid`.
Python strings are modelled as Lean `String` whose characters stand for
bytes; Python exceptions are modelled with `Except String`.
-/

/-! ## Generic helpers: Python string and list primitives -/

/-- Model of testing whether `pre` is a prefix of `l` (used for Python
`str.startswith` / `str.endswith` via reversal). -/
def isPre : List Char → List Char → Bool
  | [], _ => true
  | _ :: _, [] => false
  | a :: as, b :: bs => a = b && isPre as bs

/-- Model of Python `s.startswith(pre)`. -/
def pyStartsWith (s pre : String) : Bool := isPre pre.data s.data

/-- Model of Python `s.endswith(suf)`. -/
def pyEndsWith (s suf : String) : Bool := isPre suf.data.reverse s.data.reverse

/-- Model of Python `s.endswith('\n')`. -/
def endsNl (s : String) : Bool := s.data.getLast? = some '\n'

/-- Split a character list at every newline character; the result is the
list of newline-free segments (always nonempty, one more segment than
newlines). -/
def splitNl : List Char → List (List Char)
  | [] => [[]]
  | c :: rest =>
    if c = '\n' then [] :: splitNl rest
    else
      match splitNl rest with
      | [] => [[c]]
      | p :: ps => (c :: p) :: ps

/-- Model of Python `s.splitlines()` (newline-only line boundaries, no
kept ends, no trailing empty line). -/
def pySplitlines (s : String) : List String :=
  if s.data = [] then []
  else
    let parts := (splitNl s.data).map (fun l => String.mk l)
    if endsNl s then parts.dropLast else parts

/-- The split-and-mark idiom shared by `_content_diff`, `_patch` and
`read_text_file`: split into lines, and append an explicit empty element
exactly when the raw text ended with a newline. -/
def pySplitWithEof (raw : String) : List String :=
  let dl := pySplitlines raw
  if endsNl raw then dl ++ [""] else dl

/-- Model of `os.linesep.join` (POSIX line separator). -/
def joinLines : List String → String
  | [] => ""
  | [s] => s
  | s :: rest => s ++ "\n" ++ joinLines rest

/-- Model of Python `list.insert(i, a)`: the index is clamped to the
length, so an out-of-range index appends. -/
def pyInsert (i : Nat) (a : α) (l : List α) : List α :=
  l.take i ++ a :: l.drop i

/-- Whether a string contains a NUL byte (`'\0' in chunk`). -/
def hasNul (s : String) : Bool := s.data.contains (Char.ofNat 0)

/-- The last path segment, as produced by `posixpath.split(p)[1]`. -/
def splitTailAux (l : List Char) (acc : List Char) : List Char :=
  match l with
  | [] => acc.reverse
  | c :: rest => if c = '/' then splitTailAux rest [] else splitTailAux rest (c :: acc)

/-- Model of `posixpath.split(p)[1]` (the basename). -/
def pathSplitTail (s : String) : String := String.mk (splitTailAux s.data [])

/-- Digit-sequence accumulator for `pyInt?`. -/
def parseDigitsAux : List Char → Nat → Option Nat
  | [], acc => some acc
  | c :: rest, acc =>
    if '0' ≤ c && c ≤ '9' then parseDigitsAux rest (acc * 10 + (c.toNat - 48))
    else none

/-- Parse a nonempty all-digit character list. -/
def parseDigits (l : List Char) : Option Nat :=
  match l with
  | [] => none
  | _ :: _ => parseDigitsAux l 0

/-- Model of Python `int(s)` on version leaves: optional sign followed by
digits; anything else raises (here: `none`). -/
def pyInt? (s : String) : Option Int :=
  match s.data with
  | '-' :: rest => (parseDigits rest).map (fun n => -(n : Int))
  | '+' :: rest => (parseDigits rest).map (fun n => (n : Int))
  | l => (parseDigits l).map (fun n => (n : Int))

/-! ## Association lists (Python `dict` with per-key update) -/

/-- Lookup in an association list (Python `d[k]` / `k in d`). -/
def alookup {κ α : Type} [DecidableEq κ] (l : List (κ × α)) (k : κ) : Option α :=
  match l with
  | [] => none
  | e :: rest => if e.1 = k then some e.2 else alookup rest k

/-- Update in an association list (Python `d[k] = v`): replaces the value
in place when the key is present, appends otherwise. -/
def aupdate {κ α : Type} [DecidableEq κ] (l : List (κ × α)) (k : κ) (v : α) :
    List (κ × α) :=
  match l with
  | [] => [(k, v)]
  | e :: rest => if e.1 = k then (k, v) :: rest else e :: aupdate rest k v

/-! ## CRC-32 (model of `zlib.crc32`) -/

/-- One shift round of the reflected CRC-32 polynomial 0xEDB88320. -/
def crcStep (c : Nat) : Nat :=
  if c % 2 = 1 then (c / 2) ^^^ 0xEDB88320 else c / 2

/-- Fold one byte into the CRC register. -/
def crcByte (c b : Nat) : Nat := crcStep^[8] ((c ^^^ b % 256) % 4294967296)

/-- CRC-32 of a byte list, as computed by `zlib.crc32` (up to the final
sign convention, irrelevant to equality comparison). -/
def crc32 (data : List Nat) : Nat :=
  (data.foldl crcByte 0xFFFFFFFF) ^^^ 0xFFFFFFFF

/-- CRC-32 of a (byte-)string. -/
def crc32Str (s : String) : Nat := crc32 (s.data.map Char.toNat)

/-! ## The merge hyperlink pattern `"Merge@.*?" <- ".*"` -/

/-- The literal prefix `"Merge@` of the merge-hyperlink regex. -/
def mergeMarkChars : List Char := ['"', 'M', 'e', 'r', 'g', 'e', '@']

/-- The literal middle part `" <- "` of the merge-hyperlink regex. -/
def sepChars : List Char := ['"', ' ', '<', '-', ' ', '"']

/-- After the separator: scan for a closing quote with only
non-newline characters before it (`.*"` with `.` not matching newline). -/
def scanClose : List Char → Bool
  | [] => false
  | c :: rest => if c = '"' then true else if c = '\n' then false else scanClose rest

/-- Scan for an occurrence of the separator `" <- "` reachable through
non-newline characters, followed by a successful `scanClose`. -/
def scanSep : List Char → Bool
  | [] => false
  | c :: rest =>
    (isPre sepChars (c :: rest) && scanClose ((c :: rest).drop 6)) ||
      (decide (c ≠ '\n') && scanSep rest)

/-- Model of `HLINK_MERGE.match(hlinks)` for the pattern
`"Merge@.*?" <- ".*"` (anchored at the start, `.` not matching newline);
`true` iff a match exists. -/
def hlinkMergeMatch (s : String) : Bool :=
  isPre mergeMarkChars s.data && scanSep (s.data.drop 7)

/-! ## Version model -/

/-- Model of `ClearCaseClient._determine_version`: the version leaf
`CHECKEDOUT` maps to infinity (`⊤`), numeric leaves parse to integers,
anything else raises `ValueError` (here: `none`). -/
def determine_version (version_path : String) : Option (WithTop Int) :=
  let number := pathSplitTail version_path
  if number = "CHECKEDOUT" then some ⊤
  else (pyInt? number).map (fun n => (n : WithTop Int))

/-- Model of `ClearCaseClient._construct_extended_path`. -/
def construct_extended_path (path version : String) : String :=
  if version = "" ∨ pyEndsWith version "CHECKEDOUT" = true then path
  else path ++ "@@" ++ version

/-! ## Filesystem model and `read_text_file` -/

/-- The file store visible to the differ: raw byte content per file path,
plus directory listings per directory path. -/
structure FS where
  files : List (String × String)
  dirs : List (String × List String)

/-- Raw content of a file (`open(path).read()`); `none` when opening
raises. -/
def fsRead (fs : FS) (p : String) : Option String := alookup fs.files p

/-- Model of `cpath.isdir`. -/
def fsIsDir (fs : FS) (p : String) : Bool := (alookup fs.dirs p).isSome

/-- Model of `os.listdir`; `none` when it raises `OSError`. -/
def fsListDir (fs : FS) (p : String) : Option (List String) := alookup fs.dirs p

/-- Model of `cpath.exists`. -/
def fsExists (fs : FS) (p : String) : Bool := (fsRead fs p).isSome || fsIsDir fs p

/-- Model of `rbtools.utils.filesystem.read_text_file` (default
`keepends=False`): `none` for binary content (contains a NUL byte), else
the list of lines with an explicit empty trailing element recording a
final newline. -/
def read_text_file (content : String) : Option (List String) :=
  if hasNul content then none else some (pySplitWithEof content)

/-! ## Content differ -/

/-- The header fixup of `_content_diff`: when the output has more than
one line and starts with a `---`/`+++` header pair, both header lines are
rewritten to the caller-supplied logical filenames. -/
def fixHeaders (old_file new_file : String) (dl : List String) : List String :=
  match dl with
  | l0 :: l1 :: rest =>
    if pyStartsWith l0 "---" && pyStartsWith l1 "+++" then
      ("--- " ++ old_file ++ "\t") :: ("+++ " ++ new_file ++ "\t") :: rest
    else l0 :: l1 :: rest
  | dl => dl

/-- Model of `ClearCaseClient._content_diff`. The external GNU diff
invocation is the parameter `dtool`, taking the `unified` flag and the two
temporary files' contents and returning the tool's raw output. -/
def content_diff (dtool : Bool → String → String → String)
    (old_content new_content : List String) (old_file new_file : String)
    (unified : Bool) : List String :=
  let raw := dtool unified (joinLines old_content) (joinLines new_content)
  let dl := pySplitWithEof raw
  if unified then fixHeaders old_file new_file dl else dl

/-- Model of `ClearCaseClient._patch`. The external GNU patch invocation
is the parameter `ptool`, taking the content and the patch fragment (as
written to the temporary files) and returning the output file's content. -/
def patchImpl (ptool : String → String → String) (content patch : List String) :
    List String :=
  pySplitWithEof (ptool (joinLines content) (joinLines patch))

/-- One step of the exclusion loop in `_diff`: keep the patched content
only when it is non-empty (`if patched: new_content = patched`). -/
def applyFrag (ptool : String → String → String) (c p : List String) :
    List String :=
  let pt := patchImpl ptool c p
  if pt.isEmpty then c else pt

/-- The order in which `_diff` hands the exclusion fragments to the patch
mechanism: `for patch in reversed(xpatches)`. -/
def patchApplicationOrder (xpatches : List (List String)) : List (List String) :=
  xpatches.reverse

/-- The text half of `_diff`: apply the exclusion fragments in
`patchApplicationOrder`, then run `_content_diff`. -/
def diffText (dtool : Bool → String → String → String)
    (ptool : String → String → String) (old_content new_content : List String)
    (old_file new_file : String) (xpatches : List (List String))
    (unified : Bool) : List String :=
  let nc := (patchApplicationOrder xpatches).foldl (applyFrag ptool) new_content
  content_diff dtool old_content nc old_file new_file unified

/-- Model of `ClearCaseClient._diff`. Returns `Except.error` when the
Python code raises (unreadable old file, unlistable directory);
`Except.ok none` models Python `None` (binary difference, or missing new
file); `Except.ok (some [])` models the falsy results `u''` and `[]`. -/
def diffImpl (fs : FS) (dtool : Bool → String → String → String)
    (ptool : String → String → String) (old_file new_file : String)
    (xpatches : List (List String)) (unified : Bool) :
    Except String (Option (List String)) :=
  if fsIsDir fs new_file then
    match fsListDir fs old_file, fsListDir fs new_file with
    | some lo, some ln =>
      Except.ok (some (diffText dtool ptool
        (lo.insertionSort (fun a b => a ≤ b) ++ [""])
        (ln.insertionSort (fun a b => a ≤ b) ++ [""])
        old_file new_file xpatches unified))
    | _, _ => Except.error "OSError"
  else if fsExists fs new_file then
    match fsRead fs old_file, fsRead fs new_file with
    | some oraw, some nraw =>
      match read_text_file oraw, read_text_file nraw with
      | some oc, some nc =>
        Except.ok (some (diffText dtool ptool oc nc old_file new_file xpatches unified))
      | _, _ =>
        Except.ok (if crc32Str oraw ≠ crc32Str nraw then none else some [])
    | _, _ => Except.error "IOError"
  else
    Except.ok none

/-! ## Changeset reducer (branch-set mode) -/

/-- A raw branch change record: path, previous version, current version,
hyperlink annotations. -/
abbrev Rec4 := String × String × String × String

/-- The running per-path triple tracked by `_sanitize_branch_changeset`. -/
structure TrackState where
  highest : WithTop Int
  current : String
  previous : String

/-- The per-path exclusion-fragment dictionary, keyed by the version
number at which the fragment was recorded. -/
abbrev XPD := List (WithTop Int × List String)

abbrev CL := List (String × TrackState)
abbrev XPL := List (String × XPD)

/-- The changelist update performed by one loop iteration of
`_sanitize_branch_changeset`: seed the entry when the path is new, then
apply the ordinal-zero / new-highest update to the tracked triple. -/
def clUpdate (cl₀ : CL) (path previous current : String) (v : WithTop Int) : CL :=
  let cl :=
    if (alookup cl₀ path).isNone then
      aupdate cl₀ path { highest := v, current := current, previous := previous }
    else cl₀
  match alookup cl path with
  | some st =>
    if v = 0 then aupdate cl path { st with previous := previous }
    else if st.highest < v then
      aupdate cl path { highest := v, current := current, previous := st.previous }
    else cl
  | none => cl

/-- One loop iteration of `_sanitize_branch_changeset`: seed the
changelist entry, collect a merge-exclusion fragment, then update the
baseline/tip. -/
def stepRecord (xmerge : Bool) (fs : FS) (dtool : Bool → String → String → String)
    (ptool : String → String → String) (s : CL × XPL) (r : Rec4) :
    Except String (CL × XPL) :=
  let path := r.1
  let previous := r.2.1
  let current := r.2.2.1
  let hlinks := r.2.2.2
  match determine_version current with
  | none => Except.error "ValueError"
  | some v =>
    let xpE : Except String XPL :=
      if xmerge && hlinkMergeMatch hlinks then
        let xp0 := if (alookup s.2 path).isNone then aupdate s.2 path [] else s.2
        match diffImpl fs dtool ptool (construct_extended_path path current)
            (construct_extended_path path previous) [] false with
        | Except.error e => Except.error e
        | Except.ok (some dl) =>
          if dl.isEmpty then Except.ok xp0
          else Except.ok (aupdate xp0 path (aupdate ((alookup xp0 path).getD []) v dl))
        | Except.ok none => Except.ok xp0
      else Except.ok s.2
    match xpE with
    | Except.error e => Except.error e
    | Except.ok xp => Except.ok (clUpdate s.1 path previous current v, xp)

/-- Fold step which lets an already-raised exception absorb the rest of
the loop. -/
def exStep (f : σ → ρ → Except ε σ) (a : Except ε σ) (r : ρ) : Except ε σ :=
  match a with
  | Except.error e => Except.error e
  | Except.ok s => f s r

/-- Exception-propagating left fold over a list. -/
def exFold (f : σ → ρ → Except ε σ) (s₀ : Except ε σ) (l : List ρ) : Except ε σ :=
  l.foldl (exStep f) s₀

/-- The main loop of `_sanitize_branch_changeset`. -/
def sanitizeState (xmerge : Bool) (fs : FS) (dtool : Bool → String → String → String)
    (ptool : String → String → String) (cs : List Rec4) :
    Except String (CL × XPL) :=
  exFold (stepRecord xmerge fs dtool ptool) (Except.ok ([], [])) cs

/-- The per-path exclusion fragments in emission order:
`[xpatchlist[path][i] for i in sorted(xpatchlist[path])]`, kept with
their keys. -/
def sortedFragments (d : XPD) : List (WithTop Int × List String) :=
  ((d.map Prod.fst).insertionSort (fun a b => a ≤ b)).map
    (fun k => (k, (alookup d k).getD []))

/-- The emission step of `_sanitize_branch_changeset`: qualify the
tracked previous/current versions and attach the sorted fragments. -/
def emitEntry (xp : XPL) (e : String × TrackState) :
    String × String × List (List String) :=
  (construct_extended_path e.1 e.2.previous,
   construct_extended_path e.1 e.2.current,
   (sortedFragments ((alookup xp e.1).getD [])).map Prod.snd)

/-- Model of `ClearCaseClient._sanitize_branch_changeset`. -/
def sanitize_branch_changeset (xmerge : Bool) (fs : FS)
    (dtool : Bool → String → String → String) (ptool : String → String → String)
    (cs : List Rec4) : Except String (List (String × String × List (List String))) :=
  match sanitizeState xmerge fs dtool ptool cs with
  | Except.error e => Except.error e
  | Except.ok (cl, xp) => Except.ok (cl.map (emitEntry xp))

/-! ## Diff assembler -/

/-- The object-identity marker line `"==== %s %s ===="`; the external
`cleartool describe -fmt %On` lookup is the parameter `oid`. -/
def oidLine (oid : String → String) (old_file new_file : String) : String :=
  "==== " ++ oid old_file ++ " " ++ oid new_file ++ " ===="

/-- One iteration of the `do_diff` loop: diff one changeset entry and
render it with its identity marker. -/
def renderEntry (oid : String → String) (fs : FS)
    (dtool : Bool → String → String → String) (ptool : String → String → String)
    (e : String × String × List (List String)) : Except String String :=
  match diffImpl fs dtool ptool e.1 e.2.1 e.2.2 true with
  | Except.error err => Except.error err
  | Except.ok d =>
    let ol := oidLine oid e.1 e.2.1
    let dl :=
      match d with
      | none => [ol, "Binary files " ++ e.1 ++ " and " ++ e.2.1 ++ " differ", ""]
      | some [] => [ol, "File " ++ e.2.1 ++ " in your changeset is unmodified", ""]
      | some l => pyInsert 2 ol l
    Except.ok (joinLines dl)

/-- The `do_diff` loop: render every entry in order, concatenating; the
first exception aborts the whole batch. -/
def renderAll (oid : String → String) (fs : FS)
    (dtool : Bool → String → String → String) (ptool : String → String → String) :
    List (String × String × List (List String)) → Except String String
  | [] => Except.ok ""
  | e :: rest =>
    match renderEntry oid fs dtool ptool e with
    | Except.error err => Except.error err
    | Except.ok r =>
      match renderAll oid fs dtool ptool rest with
      | Except.error err => Except.error err
      | Except.ok s => Except.ok (r ++ s)

/-- Model of `ClearCaseClient.do_diff`. -/
def do_diff (oid : String → String) (fs : FS)
    (dtool : Bool → String → String → String) (ptool : String → String → String)
    (cs : List (String × String × List (List String))) :
    Except String (String × Option String) :=
  match renderAll oid fs dtool ptool cs with
  | Except.error e => Except.error e
  | Except.ok s => Except.ok (s, none)

/-! ## Spec-side definitions (used to state claims) -/

/-- The Version Model's reading of "denotes the checked-out sentinel": the
version identifier's leaf segment is the sentinel `CHECKEDOUT`. -/
def denotesCheckedoutSentinel (version : String) : Bool :=
  pathSplitTail version = "CHECKEDOUT"

/-! ## Concrete collaborators and inputs for witnesses/counterexamples -/

/-- An empty file store. -/
def fs0 : FS := ⟨[], []⟩

/-- A diff tool returning empty output. -/
def dt0 : Bool → String → String → String := fun _ _ _ => ""

/-- A patch tool producing an empty output file. -/
def pt0 : String → String → String := fun _ _ => ""

/-- A constant identity lookup. -/
def oid0 : String → String := fun _ => "o"

/-- A store holding only the file `new.c`. -/
def fsNewOnly : FS := ⟨[("new.c", "x")], []⟩

/-- A store holding the text files `o.c` and `n.c`. -/
def fsXY : FS := ⟨[("o.c", "x"), ("n.c", "x")], []⟩

/-- A diff tool echoing the new content. -/
def dtId : Bool → String → String → String := fun _ _ n => n

/-- A patch tool appending the fragment to the content. -/
def ptApp : String → String → String := fun c p => c ++ p

/-- Binary content (leading NUL byte) ending in `a`. -/
def binA : String := String.mk [Char.ofNat 0, 'a']

/-- Binary content (leading NUL byte) ending in `b`. -/
def binB : String := String.mk [Char.ofNat 0, 'b']

/-- A store with a differing binary pair and an identical text pair. -/
def fsC6 : FS :=
  ⟨[("a.bin", binA), ("b.bin", binB), ("a.txt", "hello\n"), ("b.txt", "hello\n")], []⟩

/-- A diff tool returning a fixed three-line hunk with header pair. -/
def dt1 : Bool → String → String → String := fun _ _ _ => "--- x\n+++ y\nstuff"

/-! ## Claim C9 -/

/-- Claim C9 (counterexample): for version `"XCHECKEDOUT"`, whose leaf
segment is not the checked-out sentinel, `_construct_extended_path`
nevertheless returns the bare path (its check is a string-suffix test),
so the claimed biconditional fails. -/
theorem c9_counterexample :
    construct_extended_path "f" "XCHECKEDOUT" = "f" ∧
    denotesCheckedoutSentinel "XCHECKEDOUT" = false ∧
    construct_extended_path "f" "XCHECKEDOUT" ≠ "f" ++ "@@" ++ "XCHECKEDOUT" := by
  refine ⟨rfl, rfl, ?_⟩
  decide

/-- Claim C9 (amended): `_construct_extended_path` returns the bare path
iff the version is empty or merely ends with the string `CHECKEDOUT`;
for every other version it returns `path@@version`. -/
theorem c9_amended (path version : String) :
    (construct_extended_path path version = path ↔
      (version = "" ∨ pyEndsWith version "CHECKEDOUT" = true)) ∧
    (¬(version = "" ∨ pyEndsWith version "CHECKEDOUT" = true) →
      construct_extended_path path version = path ++ "@@" ++ version) := by
  constructor
  · constructor
    · intro h
      by_cases hc : version = "" ∨ pyEndsWith version "CHECKEDOUT" = true
      · exact hc
      · exfalso
        rw [construct_extended_path, if_neg hc] at h
        have hl := congrArg String.length h
        simp only [String.length_append] at hl
        have h2 : ("@@" : String).length = 2 := rfl
        omega
    · intro h
      rw [construct_extended_path, if_pos h]
  · intro h
    rw [construct_extended_path, if_neg h]

/-- Claim C9 (witness): the amended theorem applied at a sentinel-suffixed
version and at a plain numeric version. -/
theorem c9_witness :
    (construct_extended_path "f" "/main/CHECKEDOUT" = "f" ↔
      (("/main/CHECKEDOUT" : String) = "" ∨
        pyEndsWith "/main/CHECKEDOUT" "CHECKEDOUT" = true)) ∧
    construct_extended_path "f" "/main/3" = "f" ++ "@@" ++ "/main/3" :=
  ⟨(c9_amended "f" "/main/CHECKEDOUT").1,
   (c9_amended "f" "/main/3").2 (by decide)⟩

/-! ## Claim C10 -/

/-- Helper: when every patch invocation yields an empty line list, the
exclusion loop leaves the content unchanged. -/
lemma foldl_applyFrag_empty (ptool : String → String → String)
    (h : ∀ c' p', patchImpl ptool c' p' = []) :
    ∀ (l : List (List String)) (m : List String), l.foldl (applyFrag ptool) m = m := by
  intro l
  induction l with
  | nil => intro m; rfl
  | cons a t ih =>
    intro m
    have ha : applyFrag ptool m a = m := by simp [applyFrag, h]
    simp only [List.foldl_cons, ha]
    exact ih m

/-- Claim C10: in the exclusion loop of `_diff`, a patch step that yields
an empty line sequence is discarded and the pre-patch content is kept;
in particular if every patch result is empty the diff is computed on the
original new content. -/
theorem c10_thm (ptool : String → String → String) (c frag : List String) :
    (patchImpl ptool c frag = [] → applyFrag ptool c frag = c) ∧
    (∀ (dtool : Bool → String → String → String) (oc nc : List String)
        (oldf newf : String) (xs : List (List String)) (u : Bool),
      (∀ c' p', patchImpl ptool c' p' = []) →
      diffText dtool ptool oc nc oldf newf xs u = content_diff dtool oc nc oldf newf u) := by
  constructor
  · intro h
    simp [applyFrag, h]
  · intro dtool oc nc oldf newf xs u h
    unfold diffText
    rw [foldl_applyFrag_empty ptool h]

/-- Claim C10 (witness): the empty-output patch tool triggers both parts. -/
theorem c10_witness :
    applyFrag pt0 ["a"] ["p"] = ["a"] ∧
    diffText dt0 pt0 ["a"] ["b"] "o" "n" [["p"]] true =
      content_diff dt0 ["a"] ["b"] "o" "n" true :=
  ⟨(c10_thm pt0 ["a"] ["p"]).1 rfl,
   (c10_thm pt0 ["a"] ["p"]).2 dt0 ["a"] ["b"] "o" "n" [["p"]] true (fun _ _ => rfl)⟩

/-! ## Claim C8 -/

/-- Claim C8: `do_diff` renders each changeset entry as exactly one block
carrying the identity marker line: `Binary` results produce the marker
line, the literal `Binary files <old> and <new> differ` line and a blank
line; `Empty` results produce the marker line, the
`File <new> in your changeset is unmodified` line and a blank line; a
`Lines` result with its `---`/`+++` header pair gets the marker inserted
as the third line. -/
theorem c8_thm (oid : String → String) (fs : FS)
    (dtool : Bool → String → String → String) (ptool : String → String → String)
    (oldf newf : String) (xp : List (List String)) :
    (diffImpl fs dtool ptool oldf newf xp true = Except.ok none →
      renderEntry oid fs dtool ptool (oldf, newf, xp) =
        Except.ok (joinLines [oidLine oid oldf newf,
          "Binary files " ++ oldf ++ " and " ++ newf ++ " differ", ""])) ∧
    (diffImpl fs dtool ptool oldf newf xp true = Except.ok (some []) →
      renderEntry oid fs dtool ptool (oldf, newf, xp) =
        Except.ok (joinLines [oidLine oid oldf newf,
          "File " ++ newf ++ " in your changeset is unmodified", ""])) ∧
    (∀ h0 h1 rest,
      diffImpl fs dtool ptool oldf newf xp true = Except.ok (some (h0 :: h1 :: rest)) →
      renderEntry oid fs dtool ptool (oldf, newf, xp) =
        Except.ok (joinLines (h0 :: h1 :: oidLine oid oldf newf :: rest))) := by
  refine ⟨?_, ?_, ?_⟩
  · intro h
    simp [renderEntry, h]
  · intro h
    simp [renderEntry, h]
  · intro h0 h1 rest h
    simp [renderEntry, h, pyInsert]

/-- Claim C8 (witness): the three renderings at concrete inputs (binary
pair with differing CRC-32, identical text pair, and a headered hunk). -/
theorem c8_witness :
    renderEntry oid0 fsC6 dt0 pt0 ("a.bin", "b.bin", []) =
      Except.ok (joinLines [oidLine oid0 "a.bin" "b.bin",
        "Binary files " ++ "a.bin" ++ " and " ++ "b.bin" ++ " differ", ""]) ∧
    renderEntry oid0 fsC6 dt0 pt0 ("a.txt", "b.txt", []) =
      Except.ok (joinLines [oidLine oid0 "a.txt" "b.txt",
        "File " ++ "b.txt" ++ " in your changeset is unmodified", ""]) ∧
    renderEntry oid0 fsC6 dt1 pt0 ("a.txt", "b.txt", []) =
      Except.ok (joinLines
        ["--- a.txt\t" , "+++ b.txt\t", oidLine oid0 "a.txt" "b.txt", "stuff"]) :=
  ⟨(c8_thm oid0 fsC6 dt0 pt0 "a.bin" "b.bin" []).1 rfl,
   (c8_thm oid0 fsC6 dt0 pt0 "a.txt" "b.txt" []).2.1 rfl,
   (c8_thm oid0 fsC6 dt1 pt0 "a.txt" "b.txt" []).2.2
     "--- a.txt\t" "+++ b.txt\t" ["stuff"] rfl⟩

/-! ## Claim C2 -/

/-- Claim C2 (counterexample): an entry whose OLD address is unreadable
while the new one exists makes the whole batch abort with an exception,
contradicting the claim that a missing old or new address is recoverable. -/
theorem c2_counterexample :
    do_diff oid0 fsNewOnly dt0 pt0 [("old.c", "new.c", [])] =
      Except.error "IOError" := rfl

/-- Claim C2 (amended): only a missing/unreadable NEW address is
recoverable: the entry degrades to the placeholder rendering and the rest
of the batch is still processed. -/
theorem c2_amended (oid : String → String) (fs : FS)
    (dtool : Bool → String → String → String) (ptool : String → String → String)
    (oldf newf : String) (xp : List (List String))
    (rest : List (String × String × List (List String))) (out : String)
    (hdir : fsIsDir fs newf = false) (hread : fsRead fs newf = none)
    (hrest : renderAll oid fs dtool ptool rest = Except.ok out) :
    diffImpl fs dtool ptool oldf newf xp true = Except.ok none ∧
    renderAll oid fs dtool ptool ((oldf, newf, xp) :: rest) =
      Except.ok (joinLines [oidLine oid oldf newf,
        "Binary files " ++ oldf ++ " and " ++ newf ++ " differ", ""] ++ out) := by
  have hdiff : diffImpl fs dtool ptool oldf newf xp true = Except.ok none := by
    simp [diffImpl, hdir, fsExists, hread]
  refine ⟨hdiff, ?_⟩
  simp [renderAll, renderEntry, hdiff, hrest]

/-- Claim C2 (witness): a missing new file over the empty store degrades
to the placeholder and an empty remaining batch still succeeds. -/
theorem c2_witness :
    diffImpl fs0 dt0 pt0 "old.c" "new.c" [] true = Except.ok none ∧
    renderAll oid0 fs0 dt0 pt0 [("old.c", "new.c", [])] =
      Except.ok (joinLines [oidLine oid0 "old.c" "new.c",
        "Binary files " ++ "old.c" ++ " and " ++ "new.c" ++ " differ", ""] ++ "") :=
  c2_amended oid0 fs0 dt0 pt0 "old.c" "new.c" [] [] "" rfl rfl rfl

/-! ## Claim C3 -/

/-- Claim C3 (counterexample): for a missing new address the assembler
does not substitute the `unmodified` placeholder; it emits the
`Binary files ... differ` placeholder instead. -/
theorem c3_counterexample :
    renderEntry oid0 fsNewOnly dt0 pt0 ("a.c", "b.c", []) ≠
      Except.ok (joinLines [oidLine oid0 "a.c" "b.c",
        "File " ++ "b.c" ++ " in your changeset is unmodified", ""]) := by
  intro h
  have h2 : (joinLines [oidLine oid0 "a.c" "b.c",
      "Binary files " ++ "a.c" ++ " and " ++ "b.c" ++ " differ", ""]) =
      (joinLines [oidLine oid0 "a.c" "b.c",
      "File " ++ "b.c" ++ " in your changeset is unmodified", ""]) := by
    have h1 : renderEntry oid0 fsNewOnly dt0 pt0 ("a.c", "b.c", []) =
        Except.ok (joinLines [oidLine oid0 "a.c" "b.c",
          "Binary files " ++ "a.c" ++ " and " ++ "b.c" ++ " differ", ""]) := rfl
    have := h1.symm.trans h
    exact Except.ok.inj this
  exact absurd h2 (by decide)

/-- Claim C3 (amended): when the new address is absent or unreadable the
content differ returns the absence signal (`None`) without raising, and
the assembler substitutes the `Binary files <old> and <new> differ`
placeholder line for that file. -/
theorem c3_amended (oid : String → String) (fs : FS)
    (dtool : Bool → String → String → String) (ptool : String → String → String)
    (oldf newf : String) (xp : List (List String))
    (hdir : fsIsDir fs newf = false) (hread : fsRead fs newf = none) :
    diffImpl fs dtool ptool oldf newf xp true = Except.ok none ∧
    renderEntry oid fs dtool ptool (oldf, newf, xp) =
      Except.ok (joinLines [oidLine oid oldf newf,
        "Binary files " ++ oldf ++ " and " ++ newf ++ " differ", ""]) := by
  have hdiff : diffImpl fs dtool ptool oldf newf xp true = Except.ok none := by
    simp [diffImpl, hdir, fsExists, hread]
  exact ⟨hdiff, by simp [renderEntry, hdiff]⟩

/-- Claim C3 (witness): the amended theorem applied over the empty store. -/
theorem c3_witness :
    diffImpl fs0 dt0 pt0 "x.c" "y.c" [] true = Except.ok none ∧
    renderEntry oid0 fs0 dt0 pt0 ("x.c", "y.c", []) =
      Except.ok (joinLines [oidLine oid0 "x.c" "y.c",
        "Binary files " ++ "x.c" ++ " and " ++ "y.c" ++ " differ", ""]) :=
  c3_amended oid0 fs0 dt0 pt0 "x.c" "y.c" [] rfl rfl

/-! ## Claim C6 -/

/-- Claim C6: for existing regular files, diffing two identical text
contents yields `Empty` (`some []`); content containing a NUL byte is
classified as binary (`read_text_file` is `none`) and the two files then
compare by CRC-32 — `Empty` iff the checksums match, `Binary` (`none`)
otherwise — so no textual diff is ever produced for binary content. -/
theorem c6_thm (fs : FS) (dtool : Bool → String → String → String)
    (ptool : String → String → String) (oldf newf c₁ c₂ : String)
    (hdir : fsIsDir fs newf = false)
    (h1 : fsRead fs oldf = some c₁) (h2 : fsRead fs newf = some c₂) :
    ((hasNul c₁ = true ∨ hasNul c₂ = true) →
      ∀ (xp : List (List String)) (u : Bool),
        diffImpl fs dtool ptool oldf newf xp u =
          Except.ok (if crc32Str c₁ = crc32Str c₂ then some [] else none)) ∧
    (hasNul c₁ = false → c₁ = c₂ → (∀ s, dtool true s s = "") →
      diffImpl fs dtool ptool oldf newf [] true = Except.ok (some [])) := by
  constructor
  · intro hnul xp u
    have hex : fsExists fs newf = true := by simp [fsExists, h2]
    rcases hnul with h | h
    · have e1 : read_text_file c₁ = none := by simp [read_text_file, h]
      cases hrc : read_text_file c₂ <;>
        · simp only [diffImpl, hdir, Bool.false_eq_true, if_false, hex, if_true,
            h1, h2, e1, hrc]
          by_cases hc : crc32Str c₁ = crc32Str c₂ <;> simp [hc]
    · have e2 : read_text_file c₂ = none := by simp [read_text_file, h]
      cases hrc : read_text_file c₁ <;>
        · simp only [diffImpl, hdir, Bool.false_eq_true, if_false, hex, if_true,
            h1, h2, e2, hrc]
          by_cases hc : crc32Str c₁ = crc32Str c₂ <;> simp [hc]
  · intro hn1 heq hdt
    subst heq
    have hex : fsExists fs newf = true := by simp [fsExists, h2]
    have e1 : read_text_file c₁ = some (pySplitWithEof c₁) := by
      simp [read_text_file, hn1]
    simp only [diffImpl, hdir, Bool.false_eq_true, if_false, hex, if_true,
      h1, h2, e1]
    unfold diffText
    simp only [patchApplicationOrder, List.reverse_nil, List.foldl_nil]
    unfold content_diff
    rw [hdt]
    rfl

/-- Claim C6 (witness): over `fsC6`, the differing binary pair reduces to
the CRC comparison and the identical text pair yields `Empty`. -/
theorem c6_witness :
    diffImpl fsC6 dt0 pt0 "a.bin" "b.bin" [] true =
      Except.ok (if crc32Str binA = crc32Str binB then some [] else none) ∧
    diffImpl fsC6 dt0 pt0 "a.txt" "b.txt" [] true = Except.ok (some []) :=
  ⟨(c6_thm fsC6 dt0 pt0 "a.bin" "b.bin" binA binB rfl rfl rfl).1
      (Or.inl rfl) [] true,
   (c6_thm fsC6 dt0 pt0 "a.txt" "b.txt" "hello\n" "hello\n" rfl rfl rfl).2
      rfl rfl (fun _ => rfl)⟩

/-! ## Claim C5 (counterexample part) -/

/-- Claim C5 (counterexample): with the order-sensitive patch tool that
appends each fragment to the content, the ascending emitted fragment list
`[["a"], ["b"]]` is applied by `_diff` newest-first, producing `"xba"`;
the claimed ascending (oldest-first) application would produce `"xab"`. -/
theorem c5_counterexample :
    diffImpl fsXY dtId ptApp "o.c" "n.c" [["a"], ["b"]] true =
      Except.ok (some ["xba"]) ∧ (["xba"] : List String) ≠ ["xab"] :=
  ⟨rfl, by decide⟩

/-! ## Claim C7: trailing-newline bookkeeping -/

/-- `splitNl` never returns the empty list. -/
lemma splitNl_ne_nil (l : List Char) : splitNl l ≠ [] := by
  cases l with
  | nil => simp [splitNl]
  | cons c rest =>
    unfold splitNl
    by_cases hc : c = '\n'
    · simp [hc]
    · simp only [hc, if_false]
      cases h : splitNl rest <;> simp

/-- The last element of a cons is the last of the tail, defaulting to the
head. -/
lemma getLast?_cons_eq {α : Type} (a : α) (l : List α) :
    (a :: l).getLast? = some (l.getLast?.getD a) := by
  induction l generalizing a with
  | nil => rfl
  | cons b m ih => simp [List.getLast?_cons_cons, ih]

/-- `getLast?` commutes with `map`. -/
lemma getLast?_map {α β : Type} (f : α → β) (l : List α) :
    (l.map f).getLast? = l.getLast?.map f := by
  induction l with
  | nil => rfl
  | cons a m ih =>
    cases m with
    | nil => rfl
    | cons b m' =>
      rw [List.map_cons, List.map_cons, List.getLast?_cons_cons,
        List.getLast?_cons_cons, ← List.map_cons f b m', ih]

/-- If a nonempty character list does not end in a newline, the last
segment produced by `splitNl` is nonempty. -/
lemma splitNl_last_ne_nil :
    ∀ (l : List Char), l ≠ [] → l.getLast? ≠ some '\n' →
      ∀ q, (splitNl l).getLast? = some q → q ≠ [] := by
  intro l
  induction l with
  | nil => intro h; exact absurd rfl h
  | cons c rest ih =>
    intro _ hlast q hq
    cases hrest : rest with
    | nil =>
      subst hrest
      have hc : c ≠ '\n' := by
        intro h
        exact hlast (by simp [h])
      have e : splitNl [c] = [[c]] := by simp [splitNl, hc]
      rw [e] at hq
      simp only [List.getLast?_singleton, Option.some.injEq] at hq
      subst hq
      simp
    | cons b rest' =>
      subst hrest
      have hlast' : (b :: rest').getLast? ≠ some '\n' := by
        rwa [List.getLast?_cons_cons] at hlast
      obtain ⟨p, ps, hps⟩ : ∃ p ps, splitNl (b :: rest') = p :: ps := by
        cases h2 : splitNl (b :: rest') with
        | nil => exact absurd h2 (splitNl_ne_nil _)
        | cons p ps => exact ⟨p, ps, rfl⟩
      by_cases hc : c = '\n'
      · have e : splitNl (c :: b :: rest') = [] :: splitNl (b :: rest') := by
          simp [splitNl, hc]
        rw [e, hps, List.getLast?_cons_cons] at hq
        exact ih (by simp) hlast' q (by rw [hps]; exact hq)
      · have e : splitNl (c :: b :: rest') = (c :: p) :: ps := by
          rw [show splitNl (c :: b :: rest') =
              (if c = '\n' then [] :: splitNl (b :: rest')
               else match splitNl (b :: rest') with
                 | [] => [[c]]
                 | p :: ps => (c :: p) :: ps) from rfl]
          rw [if_neg hc, hps]
        rw [e] at hq
        cases hp2 : ps with
        | nil =>
          subst hp2
          simp only [List.getLast?_singleton, Option.some.injEq] at hq
          subst hq
          simp
        | cons r rs =>
          subst hp2
          rw [List.getLast?_cons_cons] at hq
          apply ih (by simp) hlast' q
          rw [hps, List.getLast?_cons_cons]
          exact hq

/-- If the raw text does not end in a newline, no line produced by
`pySplitlines` that stands last is empty. -/
lemma pySplitlines_last_ne_empty (s : String) (h : endsNl s = false) :
    ∀ q, (pySplitlines s).getLast? = some q → q ≠ "" := by
  intro q hq
  by_cases hd : s.data = []
  · rw [pySplitlines, if_pos hd] at hq
    cases hq
  · rw [pySplitlines, if_neg hd] at hq
    simp only [h, Bool.false_eq_true, if_false] at hq
    rw [getLast?_map] at hq
    have hne : s.data.getLast? ≠ some '\n' := by
      intro hx
      simp [endsNl, hx] at h
    cases h2 : (splitNl s.data).getLast? with
    | none => rw [h2] at hq; cases hq
    | some qc =>
      rw [h2] at hq
      have hq' : some (String.mk qc) = some q := hq
      have hq2 : q = String.mk qc := (Option.some.inj hq').symm
      subst hq2
      have hqc : qc ≠ [] := splitNl_last_ne_nil s.data hd hne qc h2
      intro hcon
      apply hqc
      have := congrArg String.data hcon
      exact this

/-- The split-and-mark idiom records a trailing newline exactly as an
explicit trailing empty element. -/
lemma pySplitWithEof_last (raw : String) :
    ((pySplitWithEof raw).getLast? = some "" ↔ endsNl raw = true) := by
  by_cases h : endsNl raw = true
  · simp [pySplitWithEof, h, List.getLast?_concat]
  · have h' : endsNl raw = false := by
      cases hb : endsNl raw
      · rfl
      · exact absurd hb h
    rw [pySplitWithEof]
    simp only [h', Bool.false_eq_true, if_false]
    constructor
    · intro hq
      exact absurd rfl (pySplitlines_last_ne_empty raw h' "" hq)
    · intro hq
      cases hq

/-- A string starting with `+++` is nonempty. -/
lemma pyStartsWith_plus_ne_empty (s : String) (h : pyStartsWith s "+++" = true) :
    s ≠ "" := by
  intro he
  subst he
  exact absurd h (by decide)

/-- The rewritten `+++` header line is nonempty. -/
lemma plus_header_ne_empty (newf : String) : ("+++ " ++ newf ++ "\t") ≠ "" := by
  intro h
  have hl := congrArg String.length h
  simp only [String.length_append] at hl
  have h4 : ("+++ " : String).length = 4 := rfl
  have h1 : ("\t" : String).length = 1 := rfl
  have h0 : ("" : String).length = 0 := rfl
  omega

/-- The header fixup preserves whether the last line is the explicit
empty trailing element. -/
lemma fixHeaders_last (oldf newf : String) (dl : List String) :
    ((fixHeaders oldf newf dl).getLast? = some "" ↔ dl.getLast? = some "") := by
  cases dl with
  | nil => exact Iff.rfl
  | cons l0 t =>
    cases t with
    | nil => exact Iff.rfl
    | cons l1 rest =>
      simp only [fixHeaders]
      by_cases hsw : (pyStartsWith l0 "---" && pyStartsWith l1 "+++") = true
      · rw [if_pos hsw]
        cases rest with
        | nil =>
          have hl1 : l1 ≠ "" := by
            rcases Bool.and_eq_true_iff.mp hsw with ⟨_, hb⟩
            exact pyStartsWith_plus_ne_empty l1 hb
          constructor
          · intro hcon
            simp only [List.getLast?_cons_cons, List.getLast?_singleton,
              Option.some.injEq] at hcon
            exact absurd hcon (plus_header_ne_empty newf)
          · intro hcon
            simp only [List.getLast?_cons_cons, List.getLast?_singleton,
              Option.some.injEq] at hcon
            exact absurd hcon hl1
        | cons r rs =>
          rw [List.getLast?_cons_cons, List.getLast?_cons_cons,
            List.getLast?_cons_cons, List.getLast?_cons_cons]
      · rw [if_neg hsw]

/-- The header fixup of `_content_diff` does not disturb the
trailing-empty-element bookkeeping: the returned line list ends with an
explicit empty element iff the diff tool's raw output ended with a
newline. -/
lemma content_diff_last (dtool : Bool → String → String → String)
    (oc nc : List String) (oldf newf : String) (u : Bool) :
    ((content_diff dtool oc nc oldf newf u).getLast? = some "" ↔
      endsNl (dtool u (joinLines oc) (joinLines nc)) = true) := by
  have base := pySplitWithEof_last (dtool u (joinLines oc) (joinLines nc))
  cases u with
  | false => exact base
  | true =>
    unfold content_diff
    simp only [if_true]
    exact (fixHeaders_last oldf newf _).trans base

/-- Claim C7: for both the diff mechanism (`_content_diff`) and the patch
mechanism (`_patch`), the returned line list ends with an explicit empty
trailing element iff the tool's raw output ends with a newline. -/
theorem c7_thm (dtool : Bool → String → String → String)
    (ptool : String → String → String) (oc nc : List String)
    (oldf newf : String) (u : Bool) (c p : List String) :
    ((content_diff dtool oc nc oldf newf u).getLast? = some "" ↔
      endsNl (dtool u (joinLines oc) (joinLines nc)) = true) ∧
    ((patchImpl ptool c p).getLast? = some "" ↔
      endsNl (ptool (joinLines c) (joinLines p)) = true) :=
  ⟨content_diff_last dtool oc nc oldf newf u,
   pySplitWithEof_last (ptool (joinLines c) (joinLines p))⟩

/-! ## Claims C4/C5: emission order and application order of fragments -/

/-- The keys of the emitted fragment list are the sorted dictionary keys. -/
lemma sortedFragments_keys (d : XPD) :
    (sortedFragments d).map Prod.fst =
      (d.map Prod.fst).insertionSort (fun a b => a ≤ b) := by
  unfold sortedFragments
  rw [List.map_map]
  rw [show (Prod.fst ∘ fun k => (k, (alookup d k).getD [])) = id from rfl]
  exact List.map_id _

/-- With distinct keys, the emitted fragment list is strictly ascending in
the ordinal at which each fragment was recorded. -/
lemma sortedFragments_sorted (d : XPD) (hnd : (d.map Prod.fst).Nodup) :
    ((sortedFragments d).map Prod.fst).Pairwise (fun a b => a < b) := by
  rw [sortedFragments_keys]
  have hs : ((d.map Prod.fst).insertionSort (fun a b => a ≤ b)).Sorted
      (fun a b => a ≤ b) := List.sorted_insertionSort _ _
  have hn : ((d.map Prod.fst).insertionSort (fun a b => a ≤ b)).Nodup :=
    (List.perm_insertionSort _ _).symm.nodup hnd
  exact (List.Pairwise.and hs hn).imp (fun h => lt_of_le_of_ne h.1 h.2)

/-- Claim C5 (amended): the content differ hands the emitted (ascending)
fragment list to the patch mechanism in reverse, i.e. in strictly
DESCENDING order of the ordinal at which each fragment was recorded
(newest merge first), not ascending. -/
theorem c5_amended (d : XPD) (hnd : (d.map Prod.fst).Nodup) :
    patchApplicationOrder ((sortedFragments d).map Prod.snd) =
      ((sortedFragments d).reverse).map Prod.snd ∧
    (((sortedFragments d).reverse).map Prod.fst).Pairwise (fun a b => b < a) := by
  constructor
  · show ((sortedFragments d).map Prod.snd).reverse = _
    exact (List.map_reverse _ _).symm
  · rw [List.map_reverse]
    exact List.pairwise_reverse.mpr (sortedFragments_sorted d hnd)

/-- Claim C5 (witness): the amended theorem at a concrete two-fragment
dictionary recorded at ordinals 1 and 2. -/
theorem c5_witness :
    patchApplicationOrder
        ((sortedFragments [((1 : WithTop Int), ["a"]), ((2 : WithTop Int), ["b"])]).map
          Prod.snd) =
      ((sortedFragments [((1 : WithTop Int), ["a"]), ((2 : WithTop Int), ["b"])]).reverse).map
        Prod.snd ∧
    (((sortedFragments [((1 : WithTop Int), ["a"]), ((2 : WithTop Int), ["b"])]).reverse).map
        Prod.fst).Pairwise (fun a b => b < a) :=
  c5_amended [((1 : WithTop Int), ["a"]), ((2 : WithTop Int), ["b"])] (by decide)

/-! ## Association-list lemmas -/

lemma alookup_aupdate {κ α : Type} [DecidableEq κ] (l : List (κ × α)) (k k' : κ)
    (v : α) : alookup (aupdate l k v) k' = if k' = k then some v else alookup l k' := by
  induction l with
  | nil =>
    by_cases h : k' = k
    · subst h; simp [aupdate, alookup]
    · simp only [aupdate, alookup, if_neg h, if_neg (fun hx : k = k' => h hx.symm)]
  | cons e rest ih =>
    unfold aupdate
    by_cases he : e.1 = k
    · rw [if_pos he]
      by_cases hp : k' = k
      · subst hp; simp [alookup]
      · unfold alookup
        have h1 : ¬(k = k') := fun hx => hp hx.symm
        have h2 : ¬(e.1 = k') := by rw [he]; exact h1
        rw [if_neg h1, if_neg h2, if_neg hp]
    · rw [if_neg he]
      unfold alookup
      by_cases h2 : e.1 = k'
      · have hp : ¬(k' = k) := by
          intro hx
          exact he (by rw [h2, hx])
        rw [if_pos h2, if_neg hp, if_pos h2]
      · rw [if_neg h2, ih, if_neg h2]

lemma alookup_mem {κ α : Type} [DecidableEq κ] (l : List (κ × α)) (k : κ) (v : α)
    (h : alookup l k = some v) : (k, v) ∈ l := by
  induction l with
  | nil => cases h
  | cons e rest ih =>
    unfold alookup at h
    by_cases he : e.1 = k
    · rw [if_pos he] at h
      have hv : e.2 = v := Option.some.inj h
      have : e = (k, v) := by
        cases e
        simp only at he hv
        rw [he, hv]
      rw [← this]
      exact List.mem_cons_self e rest
    · rw [if_neg he] at h
      exact List.mem_cons_of_mem _ (ih h)

lemma alookup_none_iff {κ α : Type} [DecidableEq κ] (l : List (κ × α)) (k : κ) :
    alookup l k = none ↔ k ∉ l.map Prod.fst := by
  induction l with
  | nil => simp [alookup]
  | cons e rest ih =>
    unfold alookup
    by_cases he : e.1 = k
    · simp [he]
    · simp only [if_neg he, List.map_cons, List.mem_cons, ih]
      constructor
      · intro h hc
        rcases hc with hc | hc
        · exact he hc.symm
        · exact h hc
      · intro h hc
        exact h (Or.inr hc)

lemma keys_aupdate {κ α : Type} [DecidableEq κ] (l : List (κ × α)) (k : κ) (v : α) :
    (aupdate l k v).map Prod.fst =
      if (alookup l k).isSome then l.map Prod.fst else l.map Prod.fst ++ [k] := by
  induction l with
  | nil => simp [aupdate, alookup]
  | cons e rest ih =>
    unfold aupdate alookup
    by_cases he : e.1 = k
    · simp [he]
    · rw [if_neg he, if_neg he, List.map_cons, List.map_cons, ih]
      by_cases hs : (alookup rest k).isSome
      · rw [if_pos hs, if_pos hs]
      · rw [if_neg hs, if_neg hs, List.cons_append]

lemma nodup_keys_aupdate {κ α : Type} [DecidableEq κ] (l : List (κ × α)) (k : κ)
    (v : α) (h : (l.map Prod.fst).Nodup) : ((aupdate l k v).map Prod.fst).Nodup := by
  rw [keys_aupdate]
  by_cases hs : (alookup l k).isSome
  · rw [if_pos hs]; exact h
  · rw [if_neg hs]
    have hn : alookup l k = none := by
      cases hx : alookup l k
      · rfl
      · rw [hx] at hs; exact absurd rfl hs
    have hk : k ∉ l.map Prod.fst := (alookup_none_iff l k).mp hn
    rw [List.nodup_append]
    refine ⟨h, List.nodup_singleton k, ?_⟩
    intro a ha hb
    rw [List.mem_singleton] at hb
    subst hb
    exact hk ha

/-! ## Exception-fold lemmas -/

lemma exFold_error {σ ρ ε : Type} (f : σ → ρ → Except ε σ) (l : List ρ) (e : ε) :
    exFold f (Except.error e) l = Except.error e := by
  induction l with
  | nil => rfl
  | cons r t ih =>
    simp only [exFold, List.foldl_cons]
    exact ih

lemma exFold_invariant {σ ρ ε : Type} (f : σ → ρ → Except ε σ)
    (Q : σ → List ρ → Prop)
    (hstep : ∀ s r s' pre, Q s pre → f s r = Except.ok s' → Q s' (pre ++ [r])) :
    ∀ (l : List ρ) (pre : List ρ) (s₀ s : σ), Q s₀ pre →
      exFold f (Except.ok s₀) l = Except.ok s → Q s (pre ++ l) := by
  intro l
  induction l with
  | nil =>
    intro pre s₀ s hq h
    have hs : s₀ = s := Except.ok.inj h
    subst hs
    simpa using hq
  | cons r t ih =>
    intro pre s₀ s hq h
    have hh : exFold f (exStep f (Except.ok s₀) r) t = Except.ok s := h
    cases hf : f s₀ r with
    | error e =>
      have : exStep f (Except.ok s₀) r = Except.error e := by simp [exStep, hf]
      rw [this, exFold_error] at hh
      cases hh
    | ok s₁ =>
      have : exStep f (Except.ok s₀) r = Except.ok s₁ := by simp [exStep, hf]
      rw [this] at hh
      have hq1 := hstep s₀ r s₁ pre hq hf
      have hres := ih (pre ++ [r]) s₁ s hq1 hh
      rwa [List.append_assoc, List.singleton_append] at hres

/-! ## Reference folds for the reducer invariants -/

/-- A parsed per-path record: previous version, current version, parsed
ordinal. -/
abbrev Rec3 := String × String × WithTop Int

/-- The ordinal of a record's current version (meaningful whenever the
version parses, which holds for every record of a reduction that did not
raise). -/
def ordOf (r : Rec4) : WithTop Int := (determine_version r.2.2.1).getD 0

/-- Project a raw record to its parsed per-path form. -/
def projRec (r : Rec4) : Rec3 := (r.2.1, r.2.2.1, ordOf r)

/-- The parsed records of one path, in encounter order. -/
def projRecs (p : String) (cs : List Rec4) : List Rec3 :=
  (cs.filter (fun r => r.1 = p)).map projRec

/-- The per-record transition of the tracked
`{highest, current, previous}` triple in `_sanitize_branch_changeset`
(`none` = path not seen yet). -/
def trackStep (o : Option TrackState) (r : Rec3) : TrackState :=
  match o with
  | none => ⟨r.2.2, r.2.1, r.1⟩
  | some st =>
    if r.2.2 = 0 then ⟨st.highest, st.current, r.1⟩
    else if st.highest < r.2.2 then ⟨r.2.2, r.2.1, st.previous⟩
    else st

/-- The tracked triple after a whole per-path record list. -/
def trackFold (rs : List Rec3) : Option TrackState :=
  rs.foldl (fun o r => some (trackStep o r)) none

/-- One step of the per-path exclusion-fragment collection of
`_sanitize_branch_changeset` (the successful-execution trace: a raising
diff is excluded by the reduction having returned). -/
def xpRefStep (xmerge : Bool) (fs : FS) (dtool : Bool → String → String → String)
    (ptool : String → String → String) (d : XPD) (r : Rec4) : XPD :=
  if xmerge && hlinkMergeMatch r.2.2.2 then
    match diffImpl fs dtool ptool (construct_extended_path r.1 r.2.2.1)
        (construct_extended_path r.1 r.2.1) [] false with
    | Except.ok (some dl) => if dl.isEmpty then d else aupdate d (ordOf r) dl
    | _ => d
  else d

/-- The per-path exclusion-fragment dictionary collected over a
changeset. -/
def xpRef (xmerge : Bool) (fs : FS) (dtool : Bool → String → String → String)
    (ptool : String → String → String) (p : String) (cs : List Rec4) : XPD :=
  (cs.filter (fun r => r.1 = p)).foldl (xpRefStep xmerge fs dtool ptool) []

lemma projRecs_append (p : String) (cs1 cs2 : List Rec4) :
    projRecs p (cs1 ++ cs2) = projRecs p cs1 ++ projRecs p cs2 := by
  simp [projRecs, List.filter_append]

lemma projRecs_nil (p : String) : projRecs p [] = [] := rfl

lemma projRecs_single (p : String) (r : Rec4) :
    projRecs p [r] = if r.1 = p then [projRec r] else [] := by
  unfold projRecs
  by_cases h : r.1 = p
  · rw [if_pos h]
    have : List.filter (fun r => decide (r.1 = p)) [r] = [r] := by
      simp [List.filter, h]
    rw [this]
    rfl
  · rw [if_neg h]
    have : List.filter (fun r => decide (r.1 = p)) [r] = [] := by
      simp [List.filter, h]
    rw [this]
    rfl

lemma trackFold_concat (rs : List Rec3) (x : Rec3) :
    trackFold (rs ++ [x]) = some (trackStep (trackFold rs) x) := by
  unfold trackFold
  rw [List.foldl_append]
  rfl

lemma xpRef_concat (xmerge : Bool) (fs : FS) (dtool : Bool → String → String → String)
    (ptool : String → String → String) (p : String) (cs : List Rec4) (r : Rec4) :
    xpRef xmerge fs dtool ptool p (cs ++ [r]) =
      if r.1 = p then
        xpRefStep xmerge fs dtool ptool (xpRef xmerge fs dtool ptool p cs) r
      else xpRef xmerge fs dtool ptool p cs := by
  unfold xpRef
  rw [List.filter_append, List.foldl_append]
  by_cases h : r.1 = p
  · have : List.filter (fun r => decide (r.1 = p)) [r] = [r] := by
      simp [List.filter, h]
    rw [if_pos h, this]
    rfl
  · have : List.filter (fun r => decide (r.1 = p)) [r] = [] := by
      simp [List.filter, h]
    rw [if_neg h, this]
    rfl

lemma clUpdate_lookup (cl₀ : CL) (path previous current : String)
    (v : WithTop Int) (p : String) :
    alookup (clUpdate cl₀ path previous current v) p =
      if p = path then some (trackStep (alookup cl₀ path) (previous, current, v))
      else alookup cl₀ p := by
  unfold clUpdate trackStep
  cases h₀ : alookup cl₀ path with
  | none =>
    by_cases hv : v = 0
    · by_cases hp : p = path <;>
        simp [h₀, hv, hp, alookup_aupdate, lt_self_iff_false]
    · by_cases hp : p = path <;>
        simp [h₀, hv, hp, alookup_aupdate, lt_self_iff_false]
  | some st =>
    by_cases hv : v = 0
    · by_cases hp : p = path <;> simp [h₀, hv, hp, alookup_aupdate]
    · by_cases hlt : st.highest < v
      · by_cases hp : p = path <;> simp [h₀, hv, hp, hlt, alookup_aupdate]
      · by_cases hp : p = path <;> simp [h₀, hv, hp, hlt, alookup_aupdate]

lemma alookup_init_getD (l : XPL) (k p : String) :
    (alookup (if (alookup l k).isNone then aupdate l k [] else l) p).getD [] =
      (alookup l p).getD [] := by
  by_cases h : (alookup l k).isNone = true
  · rw [if_pos h, alookup_aupdate]
    by_cases hp : p = k
    · subst hp
      rw [if_pos rfl]
      have hn : alookup l p = none := by
        cases hx : alookup l p
        · rfl
        · rw [hx] at h; cases h
      rw [hn]
      rfl
    · rw [if_neg hp]
  · rw [if_neg h]

lemma stepRecord_inv (xm : Bool) (fs : FS) (dt : Bool → String → String → String)
    (pt : String → String → String) (s s' : CL × XPL) (r : Rec4)
    (h : stepRecord xm fs dt pt s r = Except.ok s') :
    ∃ v, determine_version r.2.2.1 = some v ∧
      s'.1 = clUpdate s.1 r.1 r.2.1 r.2.2.1 v ∧
      ∀ p, (alookup s'.2 p).getD [] =
        if p = r.1 then xpRefStep xm fs dt pt ((alookup s.2 r.1).getD []) r
        else (alookup s.2 p).getD [] := by
  cases hdv : determine_version r.2.2.1 with
  | none =>
    rw [stepRecord, hdv] at h
    cases h
  | some v =>
    rw [stepRecord, hdv] at h
    refine ⟨v, rfl, ?_⟩
    by_cases hx : (xm && hlinkMergeMatch r.2.2.2) = true
    · simp only [hx, if_true] at h
      cases hdiff : diffImpl fs dt pt (construct_extended_path r.1 r.2.2.1)
          (construct_extended_path r.1 r.2.1) [] false with
      | error e =>
        rw [hdiff] at h
        cases h
      | ok dopt =>
        rw [hdiff] at h
        have hxstep0 : dopt = none →
            xpRefStep xm fs dt pt ((alookup s.2 r.1).getD []) r =
              (alookup s.2 r.1).getD [] := by
          intro hd
          subst hd
          simp [xpRefStep, hx, hdiff]
        cases dopt with
        | none =>
          have hs' : (clUpdate s.1 r.1 r.2.1 r.2.2.1 v,
              if (alookup s.2 r.1).isNone then aupdate s.2 r.1 [] else s.2) = s' :=
            Except.ok.inj h
          rw [← hs']
          refine ⟨rfl, ?_⟩
          intro p
          rw [hxstep0 rfl]
          by_cases hp : p = r.1
          · subst hp
            rw [if_pos rfl]
            exact alookup_init_getD s.2 r.1 r.1
          · rw [if_neg hp]
            exact alookup_init_getD s.2 r.1 p
        | some dl =>
          by_cases hde : dl.isEmpty = true
          · simp only [hde, if_true] at h
            have hs' : (clUpdate s.1 r.1 r.2.1 r.2.2.1 v,
                if (alookup s.2 r.1).isNone then aupdate s.2 r.1 [] else s.2) = s' :=
              Except.ok.inj h
            rw [← hs']
            refine ⟨rfl, ?_⟩
            intro p
            have hxstep : xpRefStep xm fs dt pt ((alookup s.2 r.1).getD []) r =
                (alookup s.2 r.1).getD [] := by
              simp [xpRefStep, hx, hdiff, hde]
            rw [hxstep]
            by_cases hp : p = r.1
            · subst hp
              rw [if_pos rfl]
              exact alookup_init_getD s.2 r.1 r.1
            · rw [if_neg hp]
              exact alookup_init_getD s.2 r.1 p
          · have hde' : dl.isEmpty = false := by
              cases hb : dl.isEmpty
              · rfl
              · exact absurd hb hde
            simp only [hde', Bool.false_eq_true, if_false] at h
            have hs' : (clUpdate s.1 r.1 r.2.1 r.2.2.1 v,
                aupdate (if (alookup s.2 r.1).isNone then aupdate s.2 r.1 [] else s.2)
                  r.1
                  (aupdate ((alookup (if (alookup s.2 r.1).isNone then
                      aupdate s.2 r.1 [] else s.2) r.1).getD []) v dl)) = s' :=
              Except.ok.inj h
            rw [← hs']
            refine ⟨rfl, ?_⟩
            intro p
            have hordv : ordOf r = v := by
              rw [ordOf, hdv]
              rfl
            have hxstep : xpRefStep xm fs dt pt ((alookup s.2 r.1).getD []) r =
                aupdate ((alookup s.2 r.1).getD []) v dl := by
              simp [xpRefStep, hx, hdiff, hde, hordv]
            rw [hxstep]
            have hinner : (alookup (if (alookup s.2 r.1).isNone then
                aupdate s.2 r.1 [] else s.2) r.1).getD [] = (alookup s.2 r.1).getD [] :=
              alookup_init_getD s.2 r.1 r.1
            by_cases hp : p = r.1
            · subst hp
              rw [if_pos rfl, alookup_aupdate, if_pos rfl, Option.getD_some, hinner]
            · rw [if_neg hp]
              simp only [alookup_aupdate, if_neg hp]
              exact alookup_init_getD s.2 r.1 p
    · have hx' : (xm && hlinkMergeMatch r.2.2.2) = false := by
        cases hb : (xm && hlinkMergeMatch r.2.2.2)
        · rfl
        · exact absurd hb hx
      simp only [hx', Bool.false_eq_true, if_false] at h
      have hs' : (clUpdate s.1 r.1 r.2.1 r.2.2.1 v, s.2) = s' := Except.ok.inj h
      rw [← hs']
      refine ⟨rfl, ?_⟩
      intro p
      have hxstep : xpRefStep xm fs dt pt ((alookup s.2 r.1).getD []) r =
          (alookup s.2 r.1).getD [] := by
        simp [xpRefStep, hx']
      rw [hxstep]
      by_cases hp : p = r.1
      · subst hp
        rw [if_pos rfl]
      · rw [if_neg hp]

/-- The loop invariant of `_sanitize_branch_changeset`: after processing
`recs`, the changelist holds `trackFold` of each path's parsed records and
the fragment dictionaries hold `xpRef`. -/
def reducerInv (xm : Bool) (fs : FS) (dt : Bool → String → String → String)
    (pt : String → String → String) (s : CL × XPL) (recs : List Rec4) : Prop :=
  (∀ p, alookup s.1 p = trackFold (projRecs p recs)) ∧
  (∀ p, (alookup s.2 p).getD [] = xpRef xm fs dt pt p recs)

lemma reducerInv_step (xm : Bool) (fs : FS) (dt : Bool → String → String → String)
    (pt : String → String → String) :
    ∀ s r s' pre, reducerInv xm fs dt pt s pre →
      stepRecord xm fs dt pt s r = Except.ok s' →
      reducerInv xm fs dt pt s' (pre ++ [r]) := by
  intro s r s' pre hq hstep
  obtain ⟨h1, h2⟩ := hq
  obtain ⟨v, hdv, hcl, hxp⟩ := stepRecord_inv xm fs dt pt s s' r hstep
  have hord : ordOf r = v := by rw [ordOf, hdv]; rfl
  constructor
  · intro p
    rw [hcl, clUpdate_lookup, projRecs_append, projRecs_single]
    by_cases hp : p = r.1
    · subst hp
      rw [if_pos rfl, if_pos rfl, trackFold_concat, h1]
      unfold projRec
      rw [hord]
    · rw [if_neg hp, if_neg (fun hx => hp hx.symm), List.append_nil, h1]
  · intro p
    rw [hxp p, xpRef_concat]
    by_cases hp : p = r.1
    · subst hp
      rw [if_pos rfl, if_pos rfl, h2 r.1]
    · rw [if_neg hp, if_neg (fun hx => hp hx.symm), h2 p]

lemma sanitizeState_inv (xm : Bool) (fs : FS) (dt : Bool → String → String → String)
    (pt : String → String → String) (cs : List Rec4) (st : CL × XPL)
    (h : sanitizeState xm fs dt pt cs = Except.ok st) :
    reducerInv xm fs dt pt st cs := by
  have h0 : reducerInv xm fs dt pt ([], []) [] := by
    constructor <;> intro p <;> rfl
  have hres := exFold_invariant (stepRecord xm fs dt pt)
    (reducerInv xm fs dt pt) (reducerInv_step xm fs dt pt) cs [] ([], []) st h0 h
  simpa using hres

lemma sanitize_ok_inv (xm : Bool) (fs : FS) (dt : Bool → String → String → String)
    (pt : String → String → String) (cs : List Rec4)
    (res : List (String × String × List (List String)))
    (h : sanitize_branch_changeset xm fs dt pt cs = Except.ok res) :
    ∃ cl xp, sanitizeState xm fs dt pt cs = Except.ok (cl, xp) ∧
      res = cl.map (emitEntry xp) ∧ reducerInv xm fs dt pt (cl, xp) cs := by
  unfold sanitize_branch_changeset at h
  cases hs : sanitizeState xm fs dt pt cs with
  | error e => rw [hs] at h; cases h
  | ok st =>
    rw [hs] at h
    obtain ⟨cl, xp⟩ := st
    exact ⟨cl, xp, rfl, (Except.ok.inj h).symm, sanitizeState_inv xm fs dt pt cs _ hs⟩

/-! ## Characterization of the tracked triple -/

/-- The per-record transition applied to an already-seeded state. -/
def trackStepS (st : TrackState) (r : Rec3) : TrackState := trackStep (some st) r

/-- The tracked triple evolved from a seeded state over further records. -/
def trackGo (st : TrackState) (rs : List Rec3) : TrackState :=
  rs.foldl trackStepS st

/-- Running maximum of the ordinals, seeded at `a`. -/
def maxFrom (a : WithTop Int) (rs : List Rec3) : WithTop Int :=
  rs.foldl (fun m r => max m r.2.2) a

lemma foldl_some_trackStep : ∀ (rs : List Rec3) (t : TrackState),
    rs.foldl (fun o r => some (trackStep o r)) (some t) = some (trackGo t rs) := by
  intro rs
  induction rs with
  | nil => intro t; rfl
  | cons r rest ih => intro t; exact ih (trackStepS t r)

lemma trackFold_cons (r : Rec3) (rs : List Rec3) :
    trackFold (r :: rs) = some (trackGo (trackStep none r) rs) :=
  foldl_some_trackStep rs (trackStep none r)

lemma le_maxFrom : ∀ (rs : List Rec3) (a : WithTop Int), a ≤ maxFrom a rs := by
  intro rs
  induction rs with
  | nil => intro a; exact le_refl a
  | cons r rest ih =>
    intro a
    exact le_trans (le_max_left a r.2.2) (ih (max a r.2.2))

/-- The running triple tracks the running maximum, keeps its current when
nothing exceeds the seed, and otherwise takes the current of the FIRST
record attaining the overall maximum (ordinals assumed non-negative). -/
lemma trackGo_char : ∀ (rs : List Rec3) (st : TrackState),
    (0 : WithTop Int) ≤ st.highest → (∀ r ∈ rs, (0 : WithTop Int) ≤ r.2.2) →
    (trackGo st rs).highest = maxFrom st.highest rs ∧
    (maxFrom st.highest rs ≤ st.highest → (trackGo st rs).current = st.current) ∧
    (st.highest < maxFrom st.highest rs →
      ∃ r', rs.find? (fun r => r.2.2 = maxFrom st.highest rs) = some r' ∧
        (trackGo st rs).current = r'.2.1) := by
  intro rs
  induction rs with
  | nil =>
    intro st h0 _
    exact ⟨rfl, fun _ => rfl, fun hlt => absurd hlt (lt_irrefl _)⟩
  | cons r rest ih =>
    intro st h0 hnn
    have hvr : (0 : WithTop Int) ≤ r.2.2 := hnn r (List.mem_cons_self r rest)
    have hnn' : ∀ x ∈ rest, (0 : WithTop Int) ≤ x.2.2 :=
      fun x hx => hnn x (List.mem_cons_of_mem r hx)
    by_cases hv : r.2.2 = 0
    · have hgo : trackGo st (r :: rest) =
          trackGo ⟨st.highest, st.current, r.1⟩ rest := by
        show trackGo (trackStepS st r) rest = _
        simp [trackStepS, trackStep, hv]
      have hM : maxFrom st.highest (r :: rest) = maxFrom st.highest rest := by
        show maxFrom (max st.highest r.2.2) rest = _
        rw [hv, max_eq_left h0]
      obtain ⟨ih1, ih2, ih3⟩ :=
        ih ⟨st.highest, st.current, r.1⟩ h0 hnn'
      simp only [hgo, hM]
      refine ⟨ih1, fun hle => ih2 hle, ?_⟩
      intro hlt
      have hpred : ¬ (r.2.2 = maxFrom st.highest rest) := by
        rw [hv]
        intro hx
        rw [← hx] at hlt
        exact absurd hlt (not_lt.mpr h0)
      obtain ⟨r', hfind, hcur⟩ := ih3 hlt
      refine ⟨r', ?_, hcur⟩
      rw [List.find?_cons_of_neg _ (by simpa using hpred)]
      exact hfind
    · by_cases hlt : st.highest < r.2.2
      · have hgo : trackGo st (r :: rest) =
            trackGo ⟨r.2.2, r.2.1, st.previous⟩ rest := by
          show trackGo (trackStepS st r) rest = _
          simp [trackStepS, trackStep, hv, hlt]
        have hM : maxFrom st.highest (r :: rest) = maxFrom r.2.2 rest := by
          show maxFrom (max st.highest r.2.2) rest = _
          rw [max_eq_right (le_of_lt hlt)]
        obtain ⟨ih1, ih2, ih3⟩ := ih ⟨r.2.2, r.2.1, st.previous⟩ hvr hnn'
        simp only [hgo, hM]
        refine ⟨ih1, ?_, ?_⟩
        · intro hle
          exact absurd hlt
            (not_lt.mpr (le_trans (le_maxFrom rest r.2.2) hle))
        · intro _
          by_cases hMv : maxFrom r.2.2 rest ≤ r.2.2
          · have hMeq : maxFrom r.2.2 rest = r.2.2 :=
              le_antisymm hMv (le_maxFrom rest r.2.2)
            refine ⟨r, ?_, ?_⟩
            · exact List.find?_cons_of_pos _ (by simp [hMeq])
            · exact ih2 hMv
          · have hlt3 : r.2.2 < maxFrom r.2.2 rest := not_le.mp hMv
            obtain ⟨r', hfind, hcur⟩ := ih3 hlt3
            refine ⟨r', ?_, hcur⟩
            rw [List.find?_cons_of_neg _ (by simpa using ne_of_lt hlt3)]
            exact hfind
      · have hgo : trackGo st (r :: rest) = trackGo st rest := by
          show trackGo (trackStepS st r) rest = _
          simp [trackStepS, trackStep, hv, hlt]
        have hM : maxFrom st.highest (r :: rest) = maxFrom st.highest rest := by
          show maxFrom (max st.highest r.2.2) rest = _
          rw [max_eq_left (not_lt.mp hlt)]
        obtain ⟨ih1, ih2, ih3⟩ := ih st h0 hnn'
        simp only [hgo, hM]
        refine ⟨ih1, fun hle => ih2 hle, ?_⟩
        intro hlt2
        have hpred : ¬ (r.2.2 = maxFrom st.highest rest) := by
          intro hx
          exact absurd hlt2 (not_lt.mpr (hx ▸ (not_lt.mp hlt)))
        obtain ⟨r', hfind, hcur⟩ := ih3 hlt2
        refine ⟨r', ?_, hcur⟩
        rw [List.find?_cons_of_neg _ (by simpa using hpred)]
        exact hfind

/-- The tracked `previous` is the previous of the last ordinal-zero
record, defaulting to the seed's. -/
lemma trackGo_prev : ∀ (rs : List Rec3) (st : TrackState),
    (trackGo st rs).previous =
      (match (rs.filter (fun x => x.2.2 = 0)).getLast? with
       | some x => x.1
       | none => st.previous) := by
  intro rs
  induction rs with
  | nil => intro st; rfl
  | cons r rest ih =>
    intro st
    by_cases hv : r.2.2 = 0
    · have hgo : trackGo st (r :: rest) =
          trackGo ⟨st.highest, st.current, r.1⟩ rest := by
        show trackGo (trackStepS st r) rest = _
        simp [trackStepS, trackStep, hv]
      have hfil : (r :: rest).filter (fun x => x.2.2 = 0) =
          r :: rest.filter (fun x => x.2.2 = 0) := by
        simp [List.filter_cons, hv]
      rw [hgo, ih, hfil]
      cases hlast : (rest.filter (fun x => x.2.2 = 0)).getLast? with
      | some x =>
        rw [getLast?_cons_eq, hlast]
        rfl
      | none =>
        rw [getLast?_cons_eq, hlast]
        rfl
    · have hprev : (trackStepS st r).previous = st.previous := by
        by_cases hlt : st.highest < r.2.2 <;> simp [trackStepS, trackStep, hv, hlt]
      have hfil : (r :: rest).filter (fun x => x.2.2 = 0) =
          rest.filter (fun x => x.2.2 = 0) := by
        simp [List.filter_cons, hv]
      have hgo : trackGo st (r :: rest) = trackGo (trackStepS st r) rest := rfl
      rw [hgo, ih, hfil]
      cases hlast : (rest.filter (fun x => x.2.2 = 0)).getLast? with
      | some x => rfl
      | none => exact hprev

/-! ## Spec-side reduction results (amended claim C1) -/

/-- The current version the amended claim predicts for a path: the
current of the FIRST record attaining the maximum ordinal among the
path's records. -/
def specCurrent (p : String) (cs : List Rec4) : String :=
  match projRecs p cs with
  | [] => ""
  | r₀ :: rest =>
    match (r₀ :: rest).find? (fun r => r.2.2 = maxFrom r₀.2.2 rest) with
    | some r => r.2.1
    | none => r₀.2.1

/-- The previous version the amended claim predicts for a path: the
previous of the LAST ordinal-zero record if one exists, else the
first-seen record's previous. -/
def specPrevious (p : String) (cs : List Rec4) : String :=
  match projRecs p cs with
  | [] => ""
  | r₀ :: rest =>
    match ((r₀ :: rest).filter (fun x => x.2.2 = 0)).getLast? with
    | some x => x.1
    | none => r₀.1

/-- With non-negative ordinals, the tracked triple of a path realizes the
amended claim's current and previous. -/
lemma trackFold_spec (p : String) (cs : List Rec4) (r₀ : Rec3) (rest : List Rec3)
    (hproj : projRecs p cs = r₀ :: rest)
    (hnn : ∀ x ∈ projRecs p cs, (0 : WithTop Int) ≤ x.2.2) :
    ∃ st, trackFold (projRecs p cs) = some st ∧
      st.current = specCurrent p cs ∧ st.previous = specPrevious p cs := by
  rw [hproj] at hnn
  rw [hproj, trackFold_cons]
  have hseed : trackStep none r₀ = ⟨r₀.2.2, r₀.2.1, r₀.1⟩ := rfl
  rw [hseed]
  have h0 : (0 : WithTop Int) ≤ r₀.2.2 := hnn r₀ (List.mem_cons_self r₀ rest)
  have hnn' : ∀ x ∈ rest, (0 : WithTop Int) ≤ x.2.2 :=
    fun x hx => hnn x (List.mem_cons_of_mem r₀ hx)
  obtain ⟨hh, hc2, hc3⟩ := trackGo_char rest ⟨r₀.2.2, r₀.2.1, r₀.1⟩ h0 hnn'
  refine ⟨trackGo ⟨r₀.2.2, r₀.2.1, r₀.1⟩ rest, rfl, ?_, ?_⟩
  · have hspec : specCurrent p cs =
        (match (r₀ :: rest).find? (fun r => r.2.2 = maxFrom r₀.2.2 rest) with
         | some r => r.2.1
         | none => r₀.2.1) := by
      unfold specCurrent
      rw [hproj]
    rw [hspec]
    by_cases hle : maxFrom r₀.2.2 rest ≤ r₀.2.2
    · have hMeq : maxFrom r₀.2.2 rest = r₀.2.2 :=
        le_antisymm hle (le_maxFrom rest r₀.2.2)
      have hfind : (r₀ :: rest).find? (fun r => r.2.2 = maxFrom r₀.2.2 rest) =
          some r₀ := List.find?_cons_of_pos _ (by simp [hMeq])
      rw [hfind]
      exact hc2 hle
    · have hlt := not_le.mp hle
      obtain ⟨r', hfind, hcur⟩ := hc3 hlt
      have hfind' : (r₀ :: rest).find? (fun r => r.2.2 = maxFrom r₀.2.2 rest) =
          some r' := by
        rw [List.find?_cons_of_neg _ (by simpa using ne_of_lt hlt)]
        exact hfind
      rw [hfind']
      exact hcur
  · have hspec : specPrevious p cs =
        (match ((r₀ :: rest).filter (fun x => x.2.2 = 0)).getLast? with
         | some x => x.1
         | none => r₀.1) := by
      unfold specPrevious
      rw [hproj]
    rw [hspec, trackGo_prev]
    by_cases hv0 : r₀.2.2 = 0
    · have hfil : (r₀ :: rest).filter (fun x => x.2.2 = 0) =
          r₀ :: rest.filter (fun x => x.2.2 = 0) := by
        simp [List.filter_cons, hv0]
      rw [hfil, getLast?_cons_eq]
      cases hlast : (rest.filter (fun x => x.2.2 = 0)).getLast? with
      | some x => rfl
      | none => rfl
    · have hfil : (r₀ :: rest).filter (fun x => x.2.2 = 0) =
          rest.filter (fun x => x.2.2 = 0) := by
        simp [List.filter_cons, hv0]
      rw [hfil]

/-! ## Claim C1 -/

/-- The three-record scenario for path `foo.c` with ordinals 0, 1, 2. -/
def csB : List Rec4 :=
  [("foo.c", "/main/0", "/main/b/0", ""),
   ("foo.c", "/main/b/0", "/main/b/1", ""),
   ("foo.c", "/main/b/1", "/main/b/2", "")]

/-- Claim C1 (counterexample): two records of one path with the SAME
maximum ordinal 1; the reduction keeps the first-seen current
(`/b1/1`), while the claim (ties broken by last-seen) predicts
`/b2/1`. -/
theorem c1_counterexample :
    sanitize_branch_changeset false fs0 dt0 pt0
        [("f", "p1", "/b1/1", ""), ("f", "p2", "/b2/1", "")] =
      Except.ok [("f@@p1", "f@@/b1/1", [])] ∧
    ("f@@/b1/1" : String) ≠ "f@@/b2/1" :=
  ⟨rfl, by decide⟩

/-- Claim C1 (amended): for every completed branch-set reduction and
every path occurring in it whose ordinals are non-negative, the emitted
entry carries the current of the FIRST-seen record attaining the maximum
ordinal (ties broken in favor of the first-seen record), and the previous
of the LAST-seen ordinal-zero record if one exists, else the first-seen
record's previous (both qualified via the extended-path constructor). -/
theorem c1_amended (xm : Bool) (fs : FS) (dt : Bool → String → String → String)
    (pt : String → String → String) (cs : List Rec4)
    (res : List (String × String × List (List String))) (p : String)
    (hok : sanitize_branch_changeset xm fs dt pt cs = Except.ok res)
    (hp : p ∈ cs.map Prod.fst)
    (hnn : ∀ r ∈ cs, r.1 = p → (0 : WithTop Int) ≤ ordOf r) :
    ∃ xpf, (construct_extended_path p (specPrevious p cs),
            construct_extended_path p (specCurrent p cs), xpf) ∈ res := by
  obtain ⟨cl, xp, hs, hres, hinv⟩ := sanitize_ok_inv xm fs dt pt cs res hok
  obtain ⟨hinv1, hinv2⟩ := hinv
  obtain ⟨r, hrmem, hrp⟩ : ∃ r ∈ cs, r.1 = p := by
    obtain ⟨r, hr, hr2⟩ := List.mem_map.mp hp
    exact ⟨r, hr, hr2⟩
  have hne : projRecs p cs ≠ [] := by
    unfold projRecs
    intro hx
    have hmem : r ∈ cs.filter (fun r => r.1 = p) :=
      List.mem_filter.mpr ⟨hrmem, by simp [hrp]⟩
    rw [List.map_eq_nil_iff] at hx
    rw [hx] at hmem
    cases hmem
  obtain ⟨r₀, rest, hproj⟩ : ∃ r₀ rest, projRecs p cs = r₀ :: rest := by
    cases hx : projRecs p cs with
    | nil => exact absurd hx hne
    | cons a t => exact ⟨a, t, rfl⟩
  have hnn3 : ∀ x ∈ projRecs p cs, (0 : WithTop Int) ≤ x.2.2 := by
    intro x hx
    unfold projRecs at hx
    obtain ⟨r4, hr4, hr4e⟩ := List.mem_map.mp hx
    have hf := List.mem_filter.mp hr4
    have hq := hnn r4 hf.1 (by simpa using hf.2)
    rw [← hr4e]
    exact hq
  obtain ⟨st, hfold, hcur, hprev⟩ := trackFold_spec p cs r₀ rest hproj hnn3
  have hlk : alookup cl p = some st := by rw [hinv1 p, hfold]
  refine ⟨(sortedFragments ((alookup xp p).getD [])).map Prod.snd, ?_⟩
  have hmem2 := List.mem_map_of_mem (emitEntry xp) (alookup_mem cl p st hlk)
  rw [hres]
  have hee : emitEntry xp (p, st) =
      (construct_extended_path p (specPrevious p cs),
       construct_extended_path p (specCurrent p cs),
       (sortedFragments ((alookup xp p).getD [])).map Prod.snd) := by
    unfold emitEntry
    rw [hcur, hprev]
  rw [← hee]
  exact hmem2

/-- Claim C1 (witness): scenario B — ordinals 0, 1, 2 for `foo.c` with
ordinal-0 previous `/main/0` and ordinal-2 current `/main/b/2` reduce to
`(previous=foo.c@@/main/0, current=foo.c@@/main/b/2)`. -/
theorem c1_witness :
    ∃ xpf, (construct_extended_path "foo.c" (specPrevious "foo.c" csB),
            construct_extended_path "foo.c" (specCurrent "foo.c" csB), xpf) ∈
      [("foo.c@@/main/0", "foo.c@@/main/b/2", ([] : List (List String)))] :=
  c1_amended false fs0 dt0 pt0 csB
    [("foo.c@@/main/0", "foo.c@@/main/b/2", [])] "foo.c" rfl (by decide) (by decide)

/-! ## Claim C4 -/

/-- The collected per-path fragment dictionary has distinct keys. -/
lemma xpRef_nodup (xm : Bool) (fs : FS) (dt : Bool → String → String → String)
    (pt : String → String → String) (p : String) (cs : List Rec4) :
    ((xpRef xm fs dt pt p cs).map Prod.fst).Nodup := by
  unfold xpRef
  generalize cs.filter (fun r => r.1 = p) = l
  suffices h : ∀ (l : List Rec4) (d : XPD), (d.map Prod.fst).Nodup →
      ((l.foldl (xpRefStep xm fs dt pt) d).map Prod.fst).Nodup by
    exact h l [] (by simp)
  intro l
  induction l with
  | nil => intro d hd; exact hd
  | cons r t ih =>
    intro d hd
    apply ih
    unfold xpRefStep
    by_cases hx : (xm && hlinkMergeMatch r.2.2.2) = true
    · rw [if_pos hx]
      cases hdiff : diffImpl fs dt pt (construct_extended_path r.1 r.2.2.1)
          (construct_extended_path r.1 r.2.1) [] false with
      | error e => exact hd
      | ok dopt =>
        cases dopt with
        | none => exact hd
        | some dl =>
          show ((if dl.isEmpty = true then d
            else aupdate d (ordOf r) dl).map Prod.fst).Nodup
          by_cases hde : dl.isEmpty = true
          · rw [if_pos hde]; exact hd
          · rw [if_neg hde]; exact nodup_keys_aupdate d (ordOf r) dl hd
    · rw [if_neg hx]; exact hd

/-- Claim C4: for every entry of a completed branch-set reduction there
is a path whose collected fragment dictionary the entry carries: the
emitted fragment list is that dictionary's values sorted strictly
ASCENDING by the ordinal at which each fragment was recorded, and the
content differ's application order is the reverse of the emitted order,
i.e. strictly DESCENDING by recorded ordinal (newest first). -/
theorem c4_thm (xm : Bool) (fs : FS) (dt : Bool → String → String → String)
    (pt : String → String → String) (cs : List Rec4)
    (res : List (String × String × List (List String)))
    (e : String × String × List (List String))
    (hok : sanitize_branch_changeset xm fs dt pt cs = Except.ok res)
    (he : e ∈ res) :
    ∃ p, e.2.2 = (sortedFragments (xpRef xm fs dt pt p cs)).map Prod.snd ∧
      ((sortedFragments (xpRef xm fs dt pt p cs)).map Prod.fst).Pairwise
        (fun a b => a < b) ∧
      patchApplicationOrder e.2.2 =
        ((sortedFragments (xpRef xm fs dt pt p cs)).reverse).map Prod.snd ∧
      (((sortedFragments (xpRef xm fs dt pt p cs)).reverse).map Prod.fst).Pairwise
        (fun a b => b < a) := by
  obtain ⟨cl, xp, hs, hres, hinv⟩ := sanitize_ok_inv xm fs dt pt cs res hok
  obtain ⟨hinv1, hinv2⟩ := hinv
  rw [hres] at he
  obtain ⟨⟨p, st⟩, hmem, hee⟩ := List.mem_map.mp he
  have hdict : (alookup xp p).getD [] = xpRef xm fs dt pt p cs := hinv2 p
  have he22 : e.2.2 = (sortedFragments (xpRef xm fs dt pt p cs)).map Prod.snd := by
    rw [← hee]
    show (sortedFragments ((alookup xp p).getD [])).map Prod.snd = _
    rw [hdict]
  have hsorted := sortedFragments_sorted (xpRef xm fs dt pt p cs)
    (xpRef_nodup xm fs dt pt p cs)
  refine ⟨p, he22, hsorted, ?_, ?_⟩
  · rw [he22]
    show ((sortedFragments (xpRef xm fs dt pt p cs)).map Prod.snd).reverse = _
    exact (List.map_reverse _ _).symm
  · rw [List.map_reverse]
    exact List.pairwise_reverse.mpr hsorted

/-- Claim C4 (witness): the theorem applied to the scenario-B reduction. -/
theorem c4_witness :
    ∃ p, (([] : List (List String)) =
        (sortedFragments (xpRef false fs0 dt0 pt0 p csB)).map Prod.snd) ∧
      ((sortedFragments (xpRef false fs0 dt0 pt0 p csB)).map Prod.fst).Pairwise
        (fun a b => a < b) ∧
      patchApplicationOrder [] =
        ((sortedFragments (xpRef false fs0 dt0 pt0 p csB)).reverse).map Prod.snd ∧
      (((sortedFragments (xpRef false fs0 dt0 pt0 p csB)).reverse).map Prod.fst).Pairwise
        (fun a b => b < a) :=
  c4_thm false fs0 dt0 pt0 csB [("foo.c@@/main/0", "foo.c@@/main/b/2", [])]
    ("foo.c@@/main/0", "foo.c@@/main/b/2", []) rfl (by decide)
